import Mathlib

/-!
Shallow embedding of the sampling / PRNG utilities of the course notebook
(the middle-square generator, the linear-congruential generator, the
uniform generator built on it, and the Bernoulli / discrete / exponential
samplers).  Python machine arithmetic on floats is modelled as exact
arithmetic over `ℚ` (and over `ℝ` where the code calls `np.log`); the
internal uniform draw `u = np.random.rand()` of each sampler is passed as
an explicit argument, and the mutable global generator state is made
explicit as a function of the number of calls.
-/

/-- Decimal digits of `n`, least significant first, with explicit fuel;
`digitsRevFuel n n` is the digit list of a positive `n`. -/
def digitsRevFuel : Nat → Nat → List Nat
  | 0, _ => []
  | fuel + 1, n => if n = 0 then [] else n % 10 :: digitsRevFuel fuel (n / 10)

/-- Embedding of Python `str(n)` for a natural number: the most significant
first decimal digit list, `[0]` for zero. -/
def decDigits (n : Nat) : List Nat :=
  if n = 0 then [0] else (digitsRevFuel n n).reverse

/-- Embedding of Python `str.zfill(w)` on a digit string: left-pad with
zeros up to width `w`. -/
def zfill (w : Nat) (l : List Nat) : List Nat :=
  List.replicate (w - l.length) 0 ++ l

/-- Embedding of the Python slice `l[:-k]` for a nonnegative `k`: drop the
last `k` elements; `k = 0` gives the empty slice, exactly as in Python
where `-0 = 0` makes `l[:-0]` mean `l[:0]`. -/
def pyDropLast (k : Nat) (l : List Nat) : List Nat :=
  if k = 0 then [] else l.take (l.length - k)

/-- Embedding of Python `int(digit_string)`: read a digit list back as a
number. -/
def ofDigits (l : List Nat) : Nat :=
  l.foldl (fun acc d => acc * 10 + d) 0

/-- `middlesquare(s, digits=4)` from the notebook: square `s`, pad the
decimal string with zeros to `2*digits` characters, keep the middle by
dropping `digits/2` characters from the front and from the back
(`s2_str[digits/2:][:-digits/2]`, with Python 2 integer division), and
read the middle back as an integer. -/
def middlesquare (s : Nat) (digits : Nat := 4) : Nat :=
  let s2 := s ^ 2
  let s2_str := zfill (2 * digits) (decDigits s2)
  let middle_str := pyDropLast (digits / 2) (s2_str.drop (digits / 2))
  ofDigits middle_str

/-- `lcg(x, a=123456, b=978564, m=6012119)` from the notebook. -/
def lcg (x : Nat) (a : Nat := 123456) (b : Nat := 978564) (m : Nat := 6012119) : Nat :=
  (a * x + b) % m

/-- The sequence of states of the linear-congruential generator started at
seed `x0` with parameters `a`, `b`, `m`: `lcgSeq x0 a b m n` is the state
after `n` updates. -/
def lcgSeq (x0 a b m : Nat) : Nat → Nat
  | 0 => x0
  | n + 1 => lcg (lcgSeq x0 a b m n) a b m

/-- The module-level constant `m = 6012119` of the `unif_lcg` cell. -/
def m : Nat := 6012119

/-- The module-level constant `lcg_seed = 123456`. -/
def lcg_seed : Nat := 123456

/-- The notebook's global variable `lcg_state` after `n` calls of
`unif_lcg`: it starts at `lcg_seed` and each call sets
`lcg_state = lcg(lcg_state)` (all parameters left at their defaults). -/
def lcg_state (n : Nat) : Nat :=
  lcgSeq lcg_seed 123456 978564 6012119 n

/-- `unif_lcg()` from the notebook, with the call sequence made explicit:
the `n`-th call (counting from 0) first updates the global state and then
returns `lcg_state / (1. * m)`; the floating-point division is modelled
as exact rational division. -/
def unif_lcg (n : Nat) : ℚ :=
  (lcg_state (n + 1) : ℚ) / ((1 : ℚ) * (m : ℚ))

/-- `sample_bernoulli(theta)` from the notebook: `u = np.random.rand()`,
return 1 if `u <= theta`, else 0.  The draw `u` is passed explicitly and
floats are modelled as rationals. -/
def sample_bernoulli (theta u : ℚ) : Nat :=
  if u ≤ theta then 1 else 0

/-- The loop of `sample_discrete`: `c` is the running cumulative sum and
`j` the current loop index; falling off the loop returns `none` (Python
returns `None`). -/
def sampleDiscreteAux (u : ℚ) : ℚ → Nat → List ℚ → Option Nat
  | _, _, [] => none
  | c, j, q :: rest =>
    if u ≤ c + q then some j else sampleDiscreteAux u (c + q) (j + 1) rest

/-- `sample_discrete(p)` from the notebook: draw `u`, accumulate
`c += p[j]` over `j in range(m)` and return the first `j` with `u <= c`.
The draw `u` is passed explicitly and floats are modelled as rationals. -/
def sample_discrete (p : List ℚ) (u : ℚ) : Option Nat :=
  sampleDiscreteAux u 0 0 p

/-- `sample_exp(r)` from the notebook: `-np.log(1. - u) / r`, with the
draw `u` passed explicitly and floats modelled as real numbers. -/
noncomputable def sample_exp (r u : ℝ) : ℝ :=
  -Real.log (1 - u) / r

/-! Helper lemmas. -/

theorem digitsRevFuel_mem_lt (fuel : Nat) :
    ∀ n : Nat, ∀ x ∈ digitsRevFuel fuel n, x < 10 := by
  induction fuel with
  | zero => intro n x hx; simp [digitsRevFuel] at hx
  | succ fuel ih =>
    intro n x hx
    by_cases h : n = 0
    · simp [digitsRevFuel, h] at hx
    · simp only [digitsRevFuel, if_neg h, List.mem_cons] at hx
      rcases hx with h1 | h2
      · omega
      · exact ih (n / 10) x h2

theorem decDigits_mem_lt (n : Nat) : ∀ x ∈ decDigits n, x < 10 := by
  intro x hx
  by_cases h : n = 0
  · simp [decDigits, h] at hx
    omega
  · simp only [decDigits, if_neg h, List.mem_reverse] at hx
    exact digitsRevFuel_mem_lt n n x hx

theorem digitsRevFuel_length_le (fuel : Nat) :
    ∀ n k : Nat, n < 10 ^ k → (digitsRevFuel fuel n).length ≤ k := by
  induction fuel with
  | zero => intro n k _; simp [digitsRevFuel]
  | succ fuel ih =>
    intro n k hnk
    by_cases h : n = 0
    · simp [digitsRevFuel, h]
    · have hk : k ≠ 0 := by
        rintro rfl
        simp only [pow_zero] at hnk
        omega
      obtain ⟨k2, rfl⟩ : ∃ k2, k = k2 + 1 := ⟨k - 1, by omega⟩
      have hdiv : n / 10 < 10 ^ k2 := by
        have h10 : n < 10 ^ k2 * 10 := by
          calc n < 10 ^ (k2 + 1) := hnk
            _ = 10 ^ k2 * 10 := by rw [pow_succ]
        omega
      have := ih (n / 10) k2 hdiv
      simp only [digitsRevFuel, if_neg h, List.length_cons]
      omega

theorem decDigits_length_le (n k : Nat) (hk : 0 < k) (h : n < 10 ^ k) :
    (decDigits n).length ≤ k := by
  by_cases h0 : n = 0
  · simp [decDigits, h0]
    omega
  · simp only [decDigits, if_neg h0, List.length_reverse]
    exact digitsRevFuel_length_le n n k h

theorem ofDigits_foldl_lt (l : List Nat) :
    ∀ acc : Nat, (∀ x ∈ l, x < 10) →
      l.foldl (fun a d => a * 10 + d) acc < (acc + 1) * 10 ^ l.length := by
  induction l with
  | nil =>
    intro acc _
    simp only [List.foldl_nil, List.length_nil, pow_zero, mul_one]
    omega
  | cons d t ih =>
    intro acc h
    have hd : d < 10 := h d (List.mem_cons_self d t)
    have ht : ∀ x ∈ t, x < 10 := fun x hx => h x (List.mem_cons_of_mem d hx)
    have h1 := ih (acc * 10 + d) ht
    have h2 : (acc * 10 + d + 1) * 10 ^ t.length ≤ (acc + 1) * 10 ^ (t.length + 1) := by
      have hb : acc * 10 + d + 1 ≤ (acc + 1) * 10 := by omega
      calc (acc * 10 + d + 1) * 10 ^ t.length
          ≤ ((acc + 1) * 10) * 10 ^ t.length := Nat.mul_le_mul_right _ hb
        _ = (acc + 1) * 10 ^ (t.length + 1) := by ring
    calc (d :: t).foldl (fun a x => a * 10 + x) acc
        = t.foldl (fun a x => a * 10 + x) (acc * 10 + d) := by simp [List.foldl_cons]
      _ < (acc * 10 + d + 1) * 10 ^ t.length := h1
      _ ≤ (acc + 1) * 10 ^ (t.length + 1) := h2
      _ = (acc + 1) * 10 ^ (d :: t).length := by rw [List.length_cons]

theorem ofDigits_lt (l : List Nat) (h : ∀ x ∈ l, x < 10) :
    ofDigits l < 10 ^ l.length := by
  have := ofDigits_foldl_lt l 0 h
  simpa [ofDigits] using this

theorem zfill_length (w : Nat) (l : List Nat) (h : l.length ≤ w) :
    (zfill w l).length = w := by
  simp only [zfill, List.length_append, List.length_replicate]
  omega

theorem zfill_mem_lt (w : Nat) (l : List Nat) (h : ∀ x ∈ l, x < 10) :
    ∀ x ∈ zfill w l, x < 10 := by
  intro x hx
  rw [zfill] at hx
  rcases List.mem_append.mp hx with h1 | h1
  · have := List.eq_of_mem_replicate h1
    omega
  · exact h x h1

theorem ofDigits_slice_lt (l : List Nat) (k : Nat) (hk : 0 < k)
    (hmem : ∀ x ∈ l, x < 10) :
    ofDigits (pyDropLast k (l.drop k)) < 10 ^ (l.length - k - k) := by
  rw [pyDropLast, if_neg (by omega)]
  have hmemD : ∀ x ∈ l.drop k, x < 10 := fun x hx => hmem x (List.mem_of_mem_drop hx)
  have hmemT : ∀ x ∈ (l.drop k).take ((l.drop k).length - k), x < 10 :=
    fun x hx => hmemD x (List.mem_of_mem_take hx)
  have hlen : ((l.drop k).take ((l.drop k).length - k)).length ≤ l.length - k - k := by
    simp only [List.length_take, List.length_drop]
    omega
  calc ofDigits ((l.drop k).take ((l.drop k).length - k))
      < 10 ^ ((l.drop k).take ((l.drop k).length - k)).length :=
        ofDigits_lt _ hmemT
    _ ≤ 10 ^ (l.length - k - k) := Nat.pow_le_pow_right (by omega) hlen

theorem middlesquare_lt (d s : Nat) (hd2 : d % 2 = 0) (hd : 0 < d)
    (hs : s < 10 ^ d) : middlesquare s d < 10 ^ d := by
  have hs2 : s ^ 2 < 10 ^ (2 * d) := by
    calc s ^ 2 < (10 ^ d) ^ 2 := Nat.pow_lt_pow_left hs (by omega)
      _ = 10 ^ (2 * d) := by rw [← pow_mul, mul_comm]
  have hLlen : (decDigits (s ^ 2)).length ≤ 2 * d :=
    decDigits_length_le _ _ (by omega) hs2
  have hZlen : (zfill (2 * d) (decDigits (s ^ 2))).length = 2 * d :=
    zfill_length _ _ hLlen
  have hZmem : ∀ x ∈ zfill (2 * d) (decDigits (s ^ 2)), x < 10 :=
    zfill_mem_lt _ _ (decDigits_mem_lt _)
  have key : middlesquare s d =
      ofDigits (pyDropLast (d / 2) ((zfill (2 * d) (decDigits (s ^ 2))).drop (d / 2))) := rfl
  rw [key]
  have h1 := ofDigits_slice_lt (zfill (2 * d) (decDigits (s ^ 2))) (d / 2) (by omega) hZmem
  rw [hZlen] at h1
  have he : 2 * d - d / 2 - d / 2 = d := by omega
  rwa [he] at h1

theorem sampleDiscreteAux_some (u : ℚ) (l : List ℚ) :
    ∀ (c : ℚ) (j : Nat), (∀ x ∈ l, 0 ≤ x) → l ≠ [] → u ≤ c + l.sum →
      ∃ k, sampleDiscreteAux u c j l = some (j + k)
        ∧ u ≤ c + (l.take (k + 1)).sum
        ∧ ∀ i, i < k → c + (l.take (i + 1)).sum < u := by
  induction l with
  | nil => intro c j _ hne _; exact absurd rfl hne
  | cons q rest ih =>
    intro c j hnn _ hle
    by_cases h : u ≤ c + q
    · refine ⟨0, ?_, ?_, ?_⟩
      · simp [sampleDiscreteAux, h]
      · simpa [List.take_succ_cons, List.sum_cons] using h
      · intro i hi; omega
    · have hq : 0 ≤ q := hnn q (List.mem_cons_self q rest)
      have hrest_ne : rest ≠ [] := by
        rintro rfl
        rw [List.sum_cons, List.sum_nil] at hle
        exact h (by linarith)
      have hrest_nn : ∀ x ∈ rest, 0 ≤ x := fun x hx => hnn x (List.mem_cons_of_mem q hx)
      have hle2 : u ≤ (c + q) + rest.sum := by
        rw [List.sum_cons] at hle
        linarith
      obtain ⟨k, hk1, hk2, hk3⟩ := ih (c + q) (j + 1) hrest_nn hrest_ne hle2
      refine ⟨k + 1, ?_, ?_, ?_⟩
      · rw [show sampleDiscreteAux u c j (q :: rest) = sampleDiscreteAux u (c + q) (j + 1) rest
            from by simp [sampleDiscreteAux, h]]
        rw [hk1]
        congr 1
        omega
      · rw [List.take_succ_cons, List.sum_cons]
        linarith
      · intro i hi
        cases i with
        | zero =>
          rw [List.take_succ_cons, List.take_zero, List.sum_cons, List.sum_nil]
          have := not_le.mp h
          linarith
        | succ i2 =>
          have := hk3 i2 (by omega)
          rw [List.take_succ_cons, List.sum_cons]
          linarith

theorem sampleDiscreteAux_none (u : ℚ) (l : List ℚ) :
    ∀ (c : ℚ) (j : Nat),
      (sampleDiscreteAux u c j l = none ↔
        ∀ i, i < l.length → c + (l.take (i + 1)).sum < u) := by
  induction l with
  | nil => intro c j; simp [sampleDiscreteAux]
  | cons q rest ih =>
    intro c j
    by_cases h : u ≤ c + q
    · rw [show sampleDiscreteAux u c j (q :: rest) = some j
          from by simp [sampleDiscreteAux, h]]
      constructor
      · intro hx
        exact absurd hx (by simp)
      · intro hall
        have := hall 0 (by simp)
        rw [List.take_succ_cons, List.take_zero, List.sum_cons, List.sum_nil] at this
        exact absurd h (by linarith)
    · rw [show sampleDiscreteAux u c j (q :: rest) = sampleDiscreteAux u (c + q) (j + 1) rest
          from by simp [sampleDiscreteAux, h]]
      rw [ih (c + q) (j + 1)]
      constructor
      · intro hall i hi
        cases i with
        | zero =>
          rw [List.take_succ_cons, List.take_zero, List.sum_cons, List.sum_nil]
          have := not_le.mp h
          linarith
        | succ i2 =>
          have := hall i2 (by simpa using hi)
          rw [List.take_succ_cons, List.sum_cons]
          linarith
      · intro hall i hi
        have := hall (i + 1) (by simpa using hi)
        rw [List.take_succ_cons, List.sum_cons] at this
        linarith

theorem lcg_state_lt_m : ∀ n : Nat, lcg_state n < m := by
  intro n
  cases n with
  | zero =>
    show lcg_seed < m
    norm_num [lcg_seed, m]
  | succ n =>
    show lcg (lcgSeq lcg_seed 123456 978564 6012119 n) 123456 978564 6012119 < m
    rw [lcg, m]
    exact Nat.mod_lt _ (by norm_num)

/-! Claim theorems. -/

/-- C1: the linear-congruential generator follows the update
`x_{i+1} = (a*x_i + b) mod m`; with the notebook's parameters
`a = 123456`, `b = 978564`, `m = 6012119` and seed `x0 = 123456`, the
first generated state equals `(123456*123456 + 978564) mod 6012119`. -/
theorem lcg_update_rule :
    (∀ x a b mm : Nat, lcg x a b mm = (a * x + b) % mm)
    ∧ (∀ i : Nat, lcg_state (i + 1) = (123456 * lcg_state i + 978564) % 6012119)
    ∧ lcg_state 1 = (123456 * 123456 + 978564) % 6012119 :=
  ⟨fun _ _ _ _ => rfl, fun _ => rfl, rfl⟩

/-- C2: for every distribution `p` (entries nonnegative, summing to 1) and
every drawn uniform value `u` in `[0,1)`, `sample_discrete p u` returns the
smallest index `j` whose cumulative sum `p[0] + ... + p[j]` reaches `u`. -/
theorem sample_discrete_smallest_index (p : List ℚ) (u : ℚ)
    (hp : ∀ x ∈ p, 0 ≤ x) (hsum : p.sum = 1) (hu0 : 0 ≤ u) (hu1 : u < 1) :
    ∃ j, sample_discrete p u = some j ∧ u ≤ (p.take (j + 1)).sum
      ∧ ∀ i, i < j → (p.take (i + 1)).sum < u := by
  have hne : p ≠ [] := by
    rintro rfl
    simp at hsum
  have hle : u ≤ 0 + p.sum := by
    rw [hsum]
    linarith
  obtain ⟨k, h1, h2, h3⟩ := sampleDiscreteAux_some u p 0 0 hp hne hle
  refine ⟨k, ?_, ?_, ?_⟩
  · simpa [sample_discrete] using h1
  · linarith [h2]
  · intro i hi
    have := h3 i hi
    linarith

/-- Witness for C2 at `p = [1/2, 1/2]`, `u = 7/10` (the returned index is 1). -/
theorem sample_discrete_smallest_index_witness :
    ∃ j, sample_discrete [(1 : ℚ)/2, 1/2] (7/10) = some j
      ∧ (7 : ℚ)/10 ≤ (([(1 : ℚ)/2, 1/2]).take (j + 1)).sum
      ∧ ∀ i, i < j → (([(1 : ℚ)/2, 1/2]).take (i + 1)).sum < 7/10 :=
  sample_discrete_smallest_index [(1 : ℚ)/2, 1/2] (7/10)
    (by norm_num [List.forall_mem_cons]) (by norm_num [List.sum_cons, List.sum_nil])
    (by norm_num) (by norm_num)

/-- C3 counterexample: the malformed distribution `[-1, 2]` (negative
entry) is not rejected: at the valid draw `u = 1/2` the call returns the
index 1 instead of failing with an error. -/
theorem sample_discrete_malformed_counterexample :
    ((-1 : ℚ) < 0) ∧ sample_discrete [(-1 : ℚ), 2] (1/2) = some 1 := by
  refine ⟨by norm_num, ?_⟩
  norm_num [sample_discrete, sampleDiscreteAux]

/-- C3 amended: `sample_discrete` performs no validation of `p` and raises
no error of any kind: on a malformed `p` it can still return an index, and
it returns `None` exactly when every cumulative prefix sum stays below the
drawn `u`. -/
theorem sample_discrete_none_iff :
    ∀ (p : List ℚ) (u : ℚ),
      sample_discrete p u = none ↔ ∀ i, i < p.length → (p.take (i + 1)).sum < u := by
  intro p u
  have := sampleDiscreteAux_none u p 0 0
  simpa [sample_discrete] using this

/-- C4 counterexample: `u = 0` is a possible draw of `np.random.rand()`
(it lies in `[0,1)`), and at that draw `sample_bernoulli 0` returns 1,
not 0, because the comparison `u <= theta` is not strict. -/
theorem bernoulli_zero_counterexample :
    (0 : ℚ) ≤ 0 ∧ (0 : ℚ) < 1 ∧ sample_bernoulli 0 0 = 1 := by
  refine ⟨le_refl 0, by norm_num, ?_⟩
  simp [sample_bernoulli]

/-- C4 amended: for every drawn `u` in `[0,1)`, `sample_discrete [1.0] u`
returns index 0 and `sample_bernoulli 1 u` returns 1; `sample_bernoulli 0 u`
returns 0 for every drawn `u` in the open interval `(0,1)` (at `u = 0` it
returns 1). -/
theorem boundary_samples (u : ℚ) (hu0 : 0 ≤ u) (hu1 : u < 1) :
    sample_discrete [(1 : ℚ)] u = some 0
    ∧ sample_bernoulli 1 u = 1
    ∧ (0 < u → sample_bernoulli 0 u = 0) := by
  refine ⟨?_, ?_, ?_⟩
  · have h : u ≤ 1 := le_of_lt hu1
    simp [sample_discrete, sampleDiscreteAux, h]
  · have h : u ≤ 1 := le_of_lt hu1
    simp [sample_bernoulli, h]
  · intro hpos
    have h : ¬ u ≤ 0 := not_le.mpr hpos
    simp [sample_bernoulli, h]

/-- Witness for the amended C4 at the draw `u = 1/2`. -/
theorem boundary_samples_witness :
    sample_discrete [(1 : ℚ)] (1/2) = some 0
    ∧ sample_bernoulli 1 (1/2) = 1
    ∧ ((0 : ℚ) < 1/2 → sample_bernoulli 0 (1/2) = 0) :=
  boundary_samples (1/2) (by norm_num) (by norm_num)

/-- C5: for `theta` in `[0,1]` and every drawn `u`, `sample_bernoulli`
returns 1 when `u <= theta` and 0 otherwise, so the result is always 0
or 1. -/
theorem bernoulli_rule (theta u : ℚ) (h0 : 0 ≤ theta) (h1 : theta ≤ 1) :
    (u ≤ theta → sample_bernoulli theta u = 1)
    ∧ (¬ u ≤ theta → sample_bernoulli theta u = 0)
    ∧ (sample_bernoulli theta u = 0 ∨ sample_bernoulli theta u = 1) := by
  refine ⟨fun h => by simp [sample_bernoulli, h],
    fun h => by simp [sample_bernoulli, h], ?_⟩
  by_cases h : u ≤ theta
  · right
    simp [sample_bernoulli, h]
  · left
    simp [sample_bernoulli, h]

/-- Witness for C5 at `theta = 1/2`, `u = 1/4`. -/
theorem bernoulli_rule_witness :
    ((1 : ℚ)/4 ≤ 1/2 → sample_bernoulli (1/2) (1/4) = 1)
    ∧ (¬ (1 : ℚ)/4 ≤ 1/2 → sample_bernoulli (1/2) (1/4) = 0)
    ∧ (sample_bernoulli (1/2) (1/4) = 0 ∨ sample_bernoulli (1/2) (1/4) = 1) :=
  bernoulli_rule (1/2) (1/4) (by norm_num) (by norm_num)

/-- C6: for every rate `r > 0` and drawn `u` in `[0,1)`, `sample_exp r u`
equals `-ln(1-u)/r` and is nonnegative. -/
theorem sample_exp_formula_nonneg (r u : ℝ) (hr : 0 < r) (hu0 : 0 ≤ u)
    (hu1 : u < 1) :
    sample_exp r u = -Real.log (1 - u) / r ∧ 0 ≤ sample_exp r u := by
  refine ⟨rfl, ?_⟩
  have hlog : Real.log (1 - u) ≤ 0 := Real.log_nonpos (by linarith) (by linarith)
  have hnum : 0 ≤ -Real.log (1 - u) := by linarith
  exact div_nonneg hnum (le_of_lt hr)

/-- Witness for C6 at `r = 1`, `u = 1/2`. -/
theorem sample_exp_formula_nonneg_witness :
    sample_exp 1 (1/2) = -Real.log (1 - 1/2) / 1 ∧ 0 ≤ sample_exp 1 (1/2) :=
  sample_exp_formula_nonneg 1 (1/2) (by norm_num) (by norm_num) (by norm_num)

/-- C7: the LCG state stays in `[0, m)` forever, and each value returned
by `unif_lcg` is the updated state divided by `m`, hence lies in `[0,1)`
(the division is modelled as exact rational division). -/
theorem unif_lcg_in_unit_interval :
    ∀ n : Nat, lcg_state n < m
      ∧ unif_lcg n = (lcg_state (n + 1) : ℚ) / (m : ℚ)
      ∧ 0 ≤ unif_lcg n ∧ unif_lcg n < 1 := by
  intro n
  have hm : (0 : ℚ) < (m : ℚ) := by norm_num [m]
  refine ⟨lcg_state_lt_m n, by rw [unif_lcg, one_mul], ?_, ?_⟩
  · rw [unif_lcg, one_mul]
    exact div_nonneg (Nat.cast_nonneg _) (le_of_lt hm)
  · rw [unif_lcg, one_mul, div_lt_one hm]
    exact_mod_cast lcg_state_lt_m (n + 1)

/-- C8: determinism of the linear-congruential generator: two runs started
from the same seed with the same parameters produce element-wise identical
state sequences. -/
theorem lcg_deterministic (x0 x0' a a' b b' mp mp' : Nat)
    (hx : x0 = x0') (ha : a = a') (hb : b = b') (hm : mp = mp') :
    ∀ n : Nat, lcgSeq x0 a b mp n = lcgSeq x0' a' b' mp' n := by
  subst hx
  subst ha
  subst hb
  subst hm
  intro n
  rfl

/-- Witness for C8: two runs with seed 1234 and the notebook parameters
agree at position 20. -/
theorem lcg_deterministic_witness :
    lcgSeq 1234 123456 978564 6012119 20 = lcgSeq 1234 123456 978564 6012119 20 :=
  lcg_deterministic 1234 1234 123456 123456 978564 978564 6012119 6012119
    rfl rfl rfl rfl 20

/-- C9: for every even positive `digits` and every seed below
`10 ^ digits`, iterating `middlesquare` any number of times stays strictly
below `10 ^ digits`. -/
theorem middlesquare_iterate_range (d s n : Nat) (hd2 : d % 2 = 0)
    (hd : 0 < d) (hs : s < 10 ^ d) :
    Nat.iterate (fun t => middlesquare t d) n s < 10 ^ d := by
  have H : ∀ k t, t < 10 ^ d → Nat.iterate (fun x => middlesquare x d) k t < 10 ^ d := by
    intro k
    induction k with
    | zero => intro t ht; simpa using ht
    | succ k ih =>
      intro t ht
      rw [Function.iterate_succ_apply]
      exact ih _ (middlesquare_lt d t hd2 hd ht)
  exact H n s hs

/-- Witness for C9 at `digits = 4`, seed 1234, three iterations. -/
theorem middlesquare_iterate_range_witness :
    Nat.iterate (fun t => middlesquare t 4) 3 1234 < 10 ^ 4 :=
  middlesquare_iterate_range 4 1234 3 (by decide) (by decide) (by decide)

/-- C10: `sample_bernoulli` is total: for every `theta` (also outside
`[0,1]`) and every drawn `u` in `[0,1)` it returns 0 or 1; for negative
`theta` it always returns 0, and for `theta ≥ 1` it always returns 1. -/
theorem bernoulli_total (theta u : ℚ) (hu0 : 0 ≤ u) (hu1 : u < 1) :
    (sample_bernoulli theta u = 0 ∨ sample_bernoulli theta u = 1)
    ∧ (theta < 0 → sample_bernoulli theta u = 0)
    ∧ (1 ≤ theta → sample_bernoulli theta u = 1) := by
  refine ⟨?_, ?_, ?_⟩
  · by_cases h : u ≤ theta
    · right
      simp [sample_bernoulli, h]
    · left
      simp [sample_bernoulli, h]
  · intro hneg
    have h : ¬ u ≤ theta := not_le.mpr (lt_of_lt_of_le hneg hu0)
    simp [sample_bernoulli, h]
  · intro hge
    have h : u ≤ theta := le_trans (le_of_lt hu1) hge
    simp [sample_bernoulli, h]

/-- Witness for C10 at `theta = 2`, `u = 1/2`. -/
theorem bernoulli_total_witness :
    (sample_bernoulli 2 (1/2) = 0 ∨ sample_bernoulli 2 (1/2) = 1)
    ∧ ((2 : ℚ) < 0 → sample_bernoulli 2 (1/2) = 0)
    ∧ ((1 : ℚ) ≤ 2 → sample_bernoulli 2 (1/2) = 1) :=
  bernoulli_total 2 (1/2) (by norm_num) (by norm_num)
